import Mathlib

/-!
Shallow embedding of the AEP markdown link checker/fixer
(`scripts/fix.py` and `validate_links.py`).

Text is modelled as `List Char`.  File contents are assumed to have been
read through Python's universal-newline text mode, so `'\r'` never occurs
in a content string; other Unicode line-break characters are modelled
faithfully by `pySplitlinesKeepends`.  Python `\d` is modelled as the
ASCII digits `0`-`9` and regex case-insensitivity as ASCII case folding,
which is exact for the character classes appearing in the scripts'
patterns.  A Python exception escaping `validate_file` (out-of-range line
lookup, `urlparse` failure) aborts the whole run, which is modelled by
`Option`: `none` means the run died with a traceback.
-/

namespace Aeps

abbrev Line := List Char

def cs (s : String) : Line := s.data

/-- Python `str.splitlines` line-break characters. -/
def pyLineBreak (c : Char) : Bool :=
  c = '\n' || c = '\x0b' || c = '\x0c' || c = '\r' || c = '\x1c' ||
  c = '\x1d' || c = '\x1e' || c = '\u0085' || c = '\u2028' || c = '\u2029'

/-- Python `str.isspace` / regex whitespace class. -/
def pyIsSpace (c : Char) : Bool :=
  c = ' ' || c = '\t' || c = '\n' || c = '\x0b' || c = '\x0c' || c = '\r' ||
  c = '\x1c' || c = '\x1d' || c = '\x1e' || c = '\x1f' || c = '\u0085' ||
  c = '\u00a0' || c = '\u1680' || c = '\u2000' || c = '\u2001' ||
  c = '\u2002' || c = '\u2003' || c = '\u2004' || c = '\u2005' ||
  c = '\u2006' || c = '\u2007' || c = '\u2008' || c = '\u2009' ||
  c = '\u200a' || c = '\u2028' || c = '\u2029' || c = '\u202f' ||
  c = '\u205f' || c = '\u3000'

/-- Python `content.split(chr(10))`. -/
def splitOnNL : Line → List Line
  | [] => [[]]
  | c :: rest =>
    if c = '\n' then [] :: splitOnNL rest
    else
      match splitOnNL rest with
      | [] => [[c]]
      | l :: ls => (c :: l) :: ls

/-- Worker for `pySplitlinesKeepends`; `acc` holds the reversed current
line.  The `chr(13)`/`chr(10)` two-character break of `str.splitlines`
is not represented: contents reach `validate_file` through
universal-newline text mode, which leaves no `chr(13)` to pair. -/
def skeAux : Line → Line → List Line
  | acc, [] => if acc = [] then [] else [acc.reverse]
  | acc, c :: rest =>
    if pyLineBreak c then (acc.reverse ++ [c]) :: skeAux [] rest
    else skeAux (c :: acc) rest

/-- Python `content.splitlines(keepends=True)` on carriage-return-free
content. -/
def pySplitlinesKeepends (content : Line) : List Line := skeAux [] content

/-- Worker for `pyReadlines`. -/
def rlAux : Line → Line → List Line
  | acc, [] => if acc = [] then [] else [acc.reverse]
  | acc, c :: rest =>
    if c = '\n' then (acc.reverse ++ ['\n']) :: rlAux [] rest
    else rlAux (c :: acc) rest

/-- Python text-mode `f.readlines()` after universal-newline translation:
split on `'\n'` only, keeping the terminator. -/
def pyReadlines (content : Line) : List Line := rlAux [] content

/-- Python `str.strip()`. -/
def pyStrip (s : Line) : Line :=
  ((s.dropWhile pyIsSpace).reverse.dropWhile pyIsSpace).reverse

/-- Fuelled worker for `pyReplace`; each step consumes at least one
character of `s`, so fuel `s.length` is always sufficient. -/
def pyReplaceF (old new : Line) : Nat → Line → Line
  | 0, s => s
  | f + 1, s =>
    if old ≠ [] ∧ old.isPrefixOf s then
      new ++ pyReplaceF old new f (s.drop old.length)
    else
      match s with
      | [] => []
      | c :: rest => c :: pyReplaceF old new f rest

/-- Python `s.replace(old, new)` (all non-overlapping occurrences, left to
right; the empty pattern interleaves `new` everywhere, as in Python). -/
def pyReplace (s old new : Line) : Line :=
  if old = [] then new ++ s.flatMap (fun c => c :: new)
  else pyReplaceF old new s.length s

/-- Pair each per-line result with its 1-based line number, mirroring
`for line_num, line in enumerate(lines, 1)`. -/
def withLineNums (f : Line → List α) : Nat → List Line → List (Nat × α)
  | _, [] => []
  | n, l :: ls => (f l).map (fun a => (n, a)) ++ withLineNums f (n + 1) ls

/-- Match the inline-link pattern (bracketed non-bracket run, then a
parenthesised non-paren run) at the head of `s`; on success return the
two captures and the remaining input.  Both character classes force the
maximal run, so the Python regex engine's behaviour here is
deterministic. -/
def matchInlineAt (s : Line) : Option ((Line × Line) × Line) :=
  match s with
  | '[' :: r =>
    match r.span (fun c => c ≠ ']') with
    | (t, r1) =>
      if t = [] then none
      else
        match r1 with
        | ']' :: '(' :: r2 =>
          match r2.span (fun c => c ≠ ')') with
          | (u, r3) =>
            if u = [] then none
            else
              match r3 with
              | ')' :: r4 => some ((t, u), r4)
              | _ => none
        | _ => none
  | _ => none

/-- Fuelled `findall` scan for inline links: try a match at every
position, resuming after the end of each match.  Fuel `s.length` is
always sufficient since every step consumes at least one character. -/
def scanInlineF : Nat → Line → List (Line × Line)
  | 0, _ => []
  | _ + 1, [] => []
  | f + 1, c :: rest =>
    match matchInlineAt (c :: rest) with
    | some (tu, r) => tu :: scanInlineF f r
    | none => scanInlineF f rest

def scanInline (s : Line) : List (Line × Line) := scanInlineF s.length s

/-- Python `find_markdown_links`: inline `[text](url)` links with 1-based
line numbers, scanning `content.split(chr(10))` line by line. -/
def find_markdown_links (content : Line) : List (Nat × Line × Line) :=
  withLineNums scanInline 1 (splitOnNL content)

/-- Anchored match of the reference-definition pattern against an
(already stripped) line: a bracketed non-bracket run, a colon, optional
whitespace, then a non-empty remainder. -/
def refMatch (s : Line) : Option (Line × Line) :=
  match s with
  | '[' :: r =>
    match r.span (fun c => c ≠ ']') with
    | (name, r1) =>
      if name = [] then none
      else
        match r1 with
        | ']' :: ':' :: r2 =>
          match r2.dropWhile pyIsSpace with
          | [] => none
          | rest => some (name, pyStrip rest)
        | _ => none
  | _ => none

/-- Python `find_reference_links`: at most one reference-style link
`[name]: value` per stripped line. -/
def find_reference_links (content : Line) : List (Nat × Line × Line) :=
  withLineNums (fun l => (refMatch (pyStrip l)).toList) 1 (splitOnNL content)

/-- ASCII case-insensitive character comparison (regex `IGNORECASE`). -/
def ciEqChar (a b : Char) : Bool := a.toLower = b.toLower

/-- Case-insensitive equality of equal-length runs (regex backreference
under `IGNORECASE`). -/
def ciEqList (a b : Line) : Bool :=
  a.length = b.length && (List.zip a b).all (fun p => ciEqChar p.1 p.2)

/-- Match the self-reference pattern (bracketed case-insensitive
`aep-<digits>` identifier followed by a bracketed case-insensitive
backreference of it) at the head of `s`. -/
def matchSelfRefAt (s : Line) : Option (Line × Line × Line) :=
  match s with
  | b0 :: a :: e :: p :: d0 :: r2 =>
    if b0 = '[' ∧ d0 = '-' ∧
        (ciEqChar a 'a' && ciEqChar e 'e' && ciEqChar p 'p') = true then
      match r2.span Char.isDigit with
      | (ds, r3) =>
        if ds = [] then none
        else
          match r3 with
          | c1 :: c2 :: r4 =>
            if c1 = ']' ∧ c2 = '[' then
              let id1 : Line := a :: e :: p :: d0 :: ds
              let id2 : Line := r4.take id1.length
              if ciEqList id1 id2 then
                match r4.drop id1.length with
                | c3 :: rest => if c3 = ']' then some (id1, id2, rest) else none
                | [] => none
              else none
            else none
          | _ => none
    else none
  | _ => none

/-- Fuelled `findall` scan for self-reference pairs; returns the first
capture group of every match. -/
def scanSelfRefF : Nat → Line → List Line
  | 0, _ => []
  | _ + 1, [] => []
  | f + 1, c :: rest =>
    match matchSelfRefAt (c :: rest) with
    | some (id1, _, r) => id1 :: scanSelfRefF f r
    | none => scanSelfRefF f rest

def scanSelfRef (s : Line) : List Line := scanSelfRefF s.length s

/-- Python `find_self_reference_links`. -/
def find_self_reference_links (content : Line) : List (Nat × Line) :=
  withLineNums scanSelfRef 1 (splitOnNL content)

/-- Extract the digit run of a local AEP reference (regex: optional dot,
slash, one or more digits, end of string). -/
def aepRefNum (url : Line) : Option Line :=
  match url with
  | '.' :: '/' :: ds => if ds ≠ [] ∧ ds.all Char.isDigit then some ds else none
  | '/' :: ds => if ds ≠ [] ∧ ds.all Char.isDigit then some ds else none
  | _ => none

/-- Python `is_aep_reference`. -/
def is_aep_reference (url : Line) : Bool := (aepRefNum url).isSome

/-- Python `is_aep_identifier` (anchored `aep-<digits>`, case-insensitive). -/
def is_aep_identifier (t : Line) : Bool :=
  match t with
  | a :: e :: p :: '-' :: ds =>
    ciEqChar a 'a' && ciEqChar e 'e' && ciEqChar p 'p' &&
    ds ≠ [] && ds.all Char.isDigit
  | _ => false

/-- Characters allowed in a URI scheme. -/
def schemeChar (c : Char) : Bool :=
  c.isAlpha || c.isDigit || c = '+' || c = '-' || c = '.'

/-- Scheme extraction of `urllib.parse.urlsplit`: the run before the
first colon, provided it is non-empty, starts with an ASCII letter and
consists of scheme characters; the scheme is lowercased. -/
def splitScheme (url : Line) : Line × Line :=
  let pre := url.takeWhile (fun c => c ≠ ':')
  if pre.length < url.length ∧ pre ≠ [] ∧ pre.all schemeChar ∧
      (pre.headD ' ').isAlpha then
    (pre.map Char.toLower, url.drop (pre.length + 1))
  else ([], url)

/-- `urllib.parse.urlparse` restricted to the `(scheme, netloc)`
projection used by the scripts.  `none` models a `ValueError` escaping
`urlparse`: mismatched square brackets in the authority always raise;
bracketed (IPv6) and non-ASCII authorities undergo further validation
whose grammar is out of scope and are conservatively modelled as raising
as well. -/
def pyUrlsplit (url : Line) : Option (Line × Line) :=
  let (scheme, rest) := splitScheme url
  if rest.take 2 = ['/', '/'] then
    let netloc := (rest.drop 2).takeWhile (fun c => c ≠ '/' ∧ c ≠ '?' ∧ c ≠ '#')
    if netloc.contains '[' ≠ netloc.contains ']' then none
    else if netloc.contains '[' then none
    else if netloc.any (fun c => c.toNat ≥ 128) then none
    else some (scheme, netloc)
  else some (scheme, [])

/-- Python `is_http_url`; `none` models the `urlparse` exception. -/
def is_http_url (url : Line) : Option Bool :=
  (pyUrlsplit url).map (fun p => p.1 = cs "http" ∨ p.1 = cs "https")

/-- Python `is_valid_http_url`; `none` models the `urlparse` exception. -/
def is_valid_http_url (url : Line) : Option Bool :=
  (pyUrlsplit url).map
    (fun p => (p.1 = cs "http" ∨ p.1 = cs "https") ∧ p.2 ≠ [])

/-- Rule 1 trigger: URL ends in `.md` and is not an external GitHub link. -/
def mdCond (url : Line) : Bool :=
  (cs ".md").isSuffixOf url && !((cs "https://github.com/").isPrefixOf url)

/-- Rule 4 (reference-definition with AEP identifier) repair: remove the
construct, first trying with a trailing line break, then without. -/
def refFix (orig t url : Line) : Line :=
  let f1 := pyReplace orig (cs "[" ++ t ++ cs "]: " ++ url ++ cs "\n") []
  if f1 = orig then pyReplace orig (cs "[" ++ t ++ cs "]: " ++ url) [] else f1

/-- The literal `[id][id]` pattern replaced by rule 5's repair. -/
def selfPat (t : Line) : Line := cs "[" ++ t ++ cs "][" ++ t ++ cs "]"

/-- A diagnostic, tagged by rule with the data interpolated into the
Python message. -/
inductive Err where
  | mdFile (ln : Nat) (t url : Line)
  | nonExistentAep (ln : Nat) (t url : Line)
  | invalidHttp (ln : Nat) (t url : Line)
  | refIdent (ln : Nat) (t url : Line)
  | selfRef (ln : Nat) (t : Line)
  deriving DecidableEq, Repr

/-- A proposed fix: line index, original line, replacement line. -/
abbrev Fix := Nat × Line × Line

/-- Rule 1 diagnostics for one located link. -/
def rule1Errs (ln : Nat) (t url : Line) : List Err :=
  if mdCond url then [.mdFile ln t url] else []

/-- Rule 1 repair for one located link: strip the trailing `.md` from the
URL wherever it occurs in the line. -/
def rule1Fixes (check_only : Bool) (ln : Nat) (orig url : Line) : List Fix :=
  if mdCond url && !check_only then
    [(ln - 1, orig, pyReplace orig url (url.take (url.length - 3)))]
  else []

/-- Rule 2 diagnostics: AEP-shaped URL whose digits are not in the
catalog.  No fix. -/
def rule2Errs (aeps : List Line) (ln : Nat) (t url : Line) : List Err :=
  match aepRefNum url with
  | some n => if aeps.contains n then [] else [.nonExistentAep ln t url]
  | none => []

/-- Rule 3 diagnostics: http(s)-scheme URL with an empty authority.  No
fix. -/
def rule3Errs (scheme netloc : Line) (ln : Nat) (t url : Line) : List Err :=
  if (scheme = cs "http" ∨ scheme = cs "https") ∧ netloc = [] then
    [.invalidHttp ln t url]
  else []

/-- Rule 4 trigger: the link text is an AEP identifier and its line holds
a reference definition. -/
def rule4Cond (refLines : List Nat) (ln : Nat) (t : Line) : Bool :=
  is_aep_identifier t && refLines.contains ln

/-- Rule 4 diagnostics. -/
def rule4Errs (refLines : List Nat) (ln : Nat) (t url : Line) : List Err :=
  if rule4Cond refLines ln t then [.refIdent ln t url] else []

/-- Rule 4 repair: remove the reference-definition construct. -/
def rule4Fixes (check_only : Bool) (refLines : List Nat) (ln : Nat)
    (orig t url : Line) : List Fix :=
  if rule4Cond refLines ln t && !check_only then
    [(ln - 1, orig, refFix orig t url)]
  else []

/-- Diagnostics and fixes contributed by one located link in the
`all_links` loop of `validate_file` (rules 1-4, in the order the loop
body appends them).  `none` models an exception (line lookup out of
range, or `urlparse` raising). -/
def linkEF (aeps : List Line) (check_only : Bool) (refLines : List Nat)
    (lwn : List Line) : Nat × Line × Line → Option (List Err × List Fix) :=
  fun (ln, t, url) =>
    match lwn.get? (ln - 1) with
    | none => none
    | some orig =>
      match pyUrlsplit url with
      | none => none
      | some (scheme, netloc) =>
        some (rule1Errs ln t url ++ rule2Errs aeps ln t url ++
                rule3Errs scheme netloc ln t url ++ rule4Errs refLines ln t url,
              rule1Fixes check_only ln orig url ++
                rule4Fixes check_only refLines ln orig t url)

/-- Diagnostics and fixes contributed by one self-reference match. -/
def selfEF (check_only : Bool) (lwn : List Line) :
    Nat × Line → Option (List Err × List Fix) :=
  fun (ln, t) =>
    match lwn.get? (ln - 1) with
    | none => none
    | some orig =>
      some ([.selfRef ln t],
        if check_only then []
        else [(ln - 1, orig, pyReplace orig (selfPat t) t)])

/-- Run a per-item contribution function over a list, concatenating
diagnostics and fixes in order; any exception aborts the whole run. -/
def processEF (f : α → Option (List Err × List Fix)) :
    List α → Option (List Err × List Fix)
  | [] => some ([], [])
  | x :: xs =>
    match f x, processEF f xs with
    | some (e, g), some (es, gs) => some (e ++ es, g ++ gs)
    | _, _ => none

/-- Python `validate_file` on in-memory content: diagnostics and proposed
fixes, or `none` if an exception escaped. -/
def validate_file (aeps : List Line) (check_only : Bool) (content : Line) :
    Option (List Err × List Fix) :=
  let lwn := pySplitlinesKeepends content
  let refs := find_reference_links content
  match
    processEF (linkEF aeps check_only (refs.map (fun r => r.1)) lwn)
      (find_markdown_links content ++ refs),
    processEF (selfEF check_only lwn) (find_self_reference_links content)
  with
  | some (e1, f1), some (e2, f2) => some (e1 ++ e2, f1 ++ f2)
  | _, _ => none

/-- Python `str.endswith(chr(10))`. -/
def endsNL (l : Line) : Bool := l.getLast? = some '\n'

/-- Line-break preservation of `apply_fixes`: append a newline to the
replacement when the original line ended with one and it does not. -/
def adjustNL (orig fixed : Line) : Line :=
  if endsNL orig && !endsNL fixed then fixed ++ ['\n'] else fixed

/-- Python `apply_fixes` on an in-memory line list: assign each
replacement at its index, iterating over the collected fixes in reverse. -/
def apply_fixes (lines : List Line) (fixes : List Fix) : List Line :=
  fixes.reverse.foldl (fun ls f => ls.set f.1 (adjustNL f.2.1 f.2.2)) lines

/-- The sequence of line indices `apply_fixes` processes, in processing
order. -/
def applyOrder (fixes : List Fix) : List Nat :=
  fixes.reverse.map (fun f => f.1)

/-- One full fix-mode pass over a file: validate, then apply the
collected fixes to the file's lines and re-assemble the content. -/
def runFix (aeps : List Line) (content : Line) : Option Line :=
  match validate_file aeps false content with
  | some (_, fixes) => some (apply_fixes (pyReadlines content) fixes).flatten
  | none => none

/-- All diagnostics aggregated by `main` across the processed files. -/
def all_errors (results : List (List Err × List Fix)) : List Err :=
  results.flatMap (fun r => r.1)

/-- Worker for `all_fixes`: keep (file index, fixes) for files with a
non-empty fix list, in file order. -/
def fixPairsAux : Nat → List (List Err × List Fix) → List (Nat × List Fix)
  | _, [] => []
  | i, r :: rs =>
    (if r.2 ≠ [] then [(i, r.2)] else []) ++ fixPairsAux (i + 1) rs

/-- The `all_fixes` list built by `main`. -/
def all_fixes (results : List (List Err × List Fix)) : List (Nat × List Fix) :=
  fixPairsAux 0 results

/-- Process exit code of `main`, given the per-file validation results, the
mode flag, and an oracle for whether the i-th attempted file write
succeeds.  Mirrors the control flow of `main`: exit 0 when there are no
errors; otherwise, in fix mode with a non-empty `all_fixes`, exit 0 iff
every write succeeds; otherwise exit 1. -/
def mainExit (results : List (List Err × List Fix)) (check_only : Bool)
    (writeOk : Nat → Bool) : Nat :=
  if all_errors results = [] then 0
  else if check_only = false ∧ all_fixes results ≠ [] then
    if (List.range (all_fixes results).length).all writeOk then 0 else 1
  else 1

/-- Index of the first failing write among the first `n` attempts. -/
def firstBad (n : Nat) (writeOk : Nat → Bool) : Option Nat :=
  (List.range n).find? (fun i => !writeOk i)

/-- File indices whose rewrite is attempted by `main`: in fix mode with
errors and a non-empty `all_fixes`, the files with fixes are written in
order, stopping after the first failed write. -/
def writtenFiles (results : List (List Err × List Fix)) (check_only : Bool)
    (writeOk : Nat → Bool) : List Nat :=
  if all_errors results ≠ [] ∧ check_only = false ∧ all_fixes results ≠ [] then
    let pairs := all_fixes results
    let attempted :=
      match firstBad pairs.length writeOk with
      | some k => k + 1
      | none => pairs.length
    (pairs.take attempted).map (fun p => p.1)
  else []

/-- Content whose only line-break characters are `'\n'` — the normal
situation for files read through universal-newline translation, under
which `content.split(chr(10))` and `content.splitlines(keepends=True)`
agree line by line. -/
def NLOnly (content : Line) : Prop :=
  ∀ c ∈ content, pyLineBreak c = true → c = '\n'

instance (content : Line) : Decidable (NLOnly content) :=
  inferInstanceAs (Decidable (∀ c ∈ content, pyLineBreak c = true → c = '\n'))

/-- Prepend characters to the first line of a keepends decomposition. -/
def consHead (p : Line) : List Line → List Line
  | [] => if p = [] then [] else [p]
  | l :: ls => (p ++ l) :: ls

/-- The keepends decomposition expected from a `chr(10)`-separated split:
every line but the last regains its newline; an empty last line is
dropped. -/
def keOf : List Line → List Line
  | [] => []
  | [l] => if l = [] then [] else [l]
  | l :: ls => (l ++ ['\n']) :: keOf ls

/-! ### Generic list lemmas -/

theorem count_flatMap {α β : Type} [DecidableEq β] (g : α → List β) (b : β) :
    ∀ xs : List α, (xs.flatMap g).count b = (xs.map (fun x => (g x).count b)).sum
  | [] => by simp
  | x :: xs => by
    simp [List.count_append, count_flatMap g b xs]

theorem sum_map_ite {α : Type} [DecidableEq α] (a : α) :
    ∀ xs : List α, (xs.map (fun x => if x = a then 1 else 0)).sum = xs.count a
  | [] => by simp
  | x :: xs => by
    by_cases h : x = a <;>
      simp [h, sum_map_ite a xs, List.count_cons, Nat.add_comm]

theorem get?_set_ne {α : Type} (a : α) :
    ∀ (l : List α) (i j : Nat), i ≠ j → (l.set i a).get? j = l.get? j
  | [], _, _, _ => by simp
  | x :: l, 0, j, h => by
    cases j with
    | zero => exact absurd rfl h
    | succ j => simp
  | x :: l, i + 1, j, h => by
    cases j with
    | zero => simp
    | succ j => simpa using get?_set_ne a l i j (by omega)

theorem get?_set_self {α : Type} (a : α) :
    ∀ (l : List α) (i : Nat), i < l.length → (l.set i a).get? i = some a
  | [], i, h => by simp at h
  | x :: l, 0, _ => by simp
  | x :: l, i + 1, h => by
    simpa using get?_set_self a l i (by simpa using h)

/-! ### Contribution lemmas for the validation fold -/

theorem processEF_some {α : Type} {f : α → Option (List Err × List Fix)} :
    ∀ {xs : List α} {es : List Err} {fs : List Fix},
      processEF f xs = some (es, fs) →
      (∀ x ∈ xs, (f x).isSome = true) ∧
      es = xs.flatMap (fun x => ((f x).getD ([], [])).1) ∧
      fs = xs.flatMap (fun x => ((f x).getD ([], [])).2)
  | [], es, fs, h => by
    simp [processEF] at h
    simp [h.1, h.2]
  | x :: xs, es, fs, h => by
    rw [processEF] at h
    match hx : f x, hxs : processEF f xs with
    | some (e, g), some (es', gs') =>
      rw [hx, hxs] at h
      obtain ⟨h1, h2, h3⟩ := processEF_some hxs
      simp only [Option.some.injEq, Prod.mk.injEq] at h
      refine ⟨?_, ?_, ?_⟩
      · intro y hy
        rcases List.mem_cons.mp hy with rfl | hy
        · simp [hx]
        · exact h1 y hy
      · simp [← h.1, hx, h2]
      · simp [← h.2, hx, h3]
    | some (e, g), none => rw [hx, hxs] at h; exact absurd h (by simp)
    | none, _ => rw [hx] at h; exact absurd h (by simp)

theorem withLineNums_mem {α : Type} {f : Line → List α} :
    ∀ {ls : List Line} {k n : Nat} {a : α},
      (n, a) ∈ withLineNums f k ls →
      ∃ i, i < ls.length ∧ n = k + i ∧ a ∈ f (ls.getD i [])
  | [], k, n, a, h => by simp [withLineNums] at h
  | l :: ls, k, n, a, h => by
    rw [withLineNums] at h
    rcases List.mem_append.mp h with h | h
    · obtain ⟨b, hb, hba⟩ := List.mem_map.mp h
      exact ⟨0, by simp, by simp [(Prod.mk.injEq _ _ _ _).mp hba |>.1.symm],
        by simpa [← (Prod.mk.injEq _ _ _ _).mp hba |>.2] using hb⟩
    · obtain ⟨i, hi, hn, ha⟩ := withLineNums_mem h
      exact ⟨i + 1, by simpa using hi, by omega, by simpa using ha⟩

/-! ### Lemmas about the fix-application fold -/

theorem foldlSet_length :
    ∀ (L : List Fix) (lines : List Line),
      (L.foldl (fun ls f => ls.set f.1 (adjustNL f.2.1 f.2.2)) lines).length =
        lines.length
  | [], lines => rfl
  | x :: L, lines => by
    simp [foldlSet_length L]

theorem foldlSet_frame :
    ∀ (L : List Fix) (lines : List Line) (j : Nat), (∀ f ∈ L, f.1 ≠ j) →
      (L.foldl (fun ls f => ls.set f.1 (adjustNL f.2.1 f.2.2)) lines).get? j =
        lines.get? j
  | [], lines, j, _ => rfl
  | x :: L, lines, j, h => by
    rw [List.foldl_cons, foldlSet_frame L _ j (fun f hf => h f (List.mem_cons_of_mem x hf))]
    exact get?_set_ne _ lines x.1 j (h x (List.mem_cons_self x L))

theorem foldlSet_mem :
    ∀ (L : List Fix) (lines : List Line) (j : Nat),
      (∀ f ∈ L, f.1 < lines.length) → j ∈ L.map (fun f => f.1) →
      ∃ g ∈ L, g.1 = j ∧
        (L.foldl (fun ls f => ls.set f.1 (adjustNL f.2.1 f.2.2)) lines).get? j =
          some (adjustNL g.2.1 g.2.2)
  | [], lines, j, _, hj => by simp at hj
  | x :: L, lines, j, hr, hj => by
    rw [List.foldl_cons]
    by_cases hmem : j ∈ L.map (fun f => f.1)
    · obtain ⟨g, hg, hgj, hval⟩ :=
        foldlSet_mem L (lines.set x.1 (adjustNL x.2.1 x.2.2)) j
          (fun f hf => by
            simpa using hr f (List.mem_cons_of_mem x hf))
          hmem
      exact ⟨g, List.mem_cons_of_mem x hg, hgj, hval⟩
    · have hx : x.1 = j := by
        rcases List.mem_map.mp hj with ⟨g, hg, hgj⟩
        rcases List.mem_cons.mp hg with rfl | hg
        · exact hgj
        · exact absurd (List.mem_map.mpr ⟨g, hg, hgj⟩) hmem
      refine ⟨x, List.mem_cons_self x L, hx, ?_⟩
      rw [foldlSet_frame L _ j
        (fun f hf => fun hfj => hmem (List.mem_map.mpr ⟨f, hf, hfj⟩))]
      subst hx
      exact get?_set_self _ lines x.1 (hr x (List.mem_cons_self x L))

theorem fixPairsAux_mem :
    ∀ {results : List (List Err × List Fix)} {k j : Nat} {g : List Fix},
      (j, g) ∈ fixPairsAux k results →
      ∃ m, m < results.length ∧ j = k + m ∧
        (results.getD m ([], [])).2 = g ∧ g ≠ []
  | [], k, j, g, h => by simp [fixPairsAux] at h
  | r :: rs, k, j, g, h => by
    rw [fixPairsAux] at h
    rcases List.mem_append.mp h with h | h
    · by_cases hr : r.2 ≠ [] <;> simp [hr] at h
      exact ⟨0, by simp, by simp [h.1], by simp [h.2.symm], h.2 ▸ hr⟩
    · obtain ⟨m, hm, hj, hget, hne⟩ := fixPairsAux_mem h
      exact ⟨m + 1, by simpa using hm, by omega, by simpa using hget, hne⟩

/-! ### C10: frame property of `apply_fixes` -/

/-- C10: `apply_fixes` preserves the number of lines; every line whose
index occurs in no fix is unchanged; every targeted index ends up holding
the line-break-adjusted replacement of one of its fixes. -/
theorem apply_fixes_frame (lines : List Line) (fixes : List Fix)
    (hr : ∀ f ∈ fixes, f.1 < lines.length) :
    (apply_fixes lines fixes).length = lines.length ∧
    (∀ j, (∀ f ∈ fixes, f.1 ≠ j) →
      (apply_fixes lines fixes).get? j = lines.get? j) ∧
    (∀ f ∈ fixes, ∃ g ∈ fixes, g.1 = f.1 ∧
      (apply_fixes lines fixes).get? f.1 = some (adjustNL g.2.1 g.2.2)) := by
  unfold apply_fixes
  refine ⟨foldlSet_length _ _,
    fun j hj =>
      foldlSet_frame _ _ _ (fun f hf => hj f (List.mem_reverse.mp hf)),
    fun f hf => ?_⟩
  obtain ⟨g, hg, h1, h2⟩ := foldlSet_mem fixes.reverse lines f.1
    (fun g hg => hr g (List.mem_reverse.mp hg))
    (List.mem_map.mpr ⟨f, List.mem_reverse.mpr hf, rfl⟩)
  exact ⟨g, List.mem_reverse.mp hg, h1, h2⟩

/-- Witness for C10 at a concrete two-line file with one fix. -/
theorem apply_fixes_frame_witness :
    (apply_fixes [cs "a\n", cs "b"] [(0, cs "a\n", cs "c")]).length =
      ([cs "a\n", cs "b"] : List Line).length ∧
    (∀ j, (∀ f ∈ ([(0, cs "a\n", cs "c")] : List Fix), f.1 ≠ j) →
      (apply_fixes [cs "a\n", cs "b"] [(0, cs "a\n", cs "c")]).get? j =
        ([cs "a\n", cs "b"] : List Line).get? j) ∧
    (∀ f ∈ ([(0, cs "a\n", cs "c")] : List Fix),
      ∃ g ∈ ([(0, cs "a\n", cs "c")] : List Fix), g.1 = f.1 ∧
        (apply_fixes [cs "a\n", cs "b"] [(0, cs "a\n", cs "c")]).get? f.1 =
          some (adjustNL g.2.1 g.2.2)) :=
  apply_fixes_frame [cs "a\n", cs "b"] [(0, cs "a\n", cs "c")] (by decide)

/-! ### C3: order in which `apply_fixes` processes the collected fixes -/

/-- C3 counterexample: on a file whose first line is a reference
definition with an AEP-identifier name and whose second line holds an
inline `.md` link, `validate_file` collects the line-2 fix before the
line-1 fix, so `apply_fixes` processes the indices in the order `[0, 1]`,
which is not monotonically non-increasing. -/
theorem apply_order_not_descending_cex :
    (validate_file [] false (cs "[aep-1]: ./x\n[a](u.md)")).map
        (fun r => applyOrder r.2) = some [0, 1] ∧
    ¬ List.Chain' (fun a b : Nat => b ≤ a) [0, 1] := by
  constructor
  · decide
  · simp [List.chain'_cons]

/-- C3 amended: `apply_fixes` processes the fixes in reverse collection
order, so whenever the collected fix list is non-decreasing in line
index (as is the case for fixes collected from a single rule category),
the processed index sequence is monotonically non-increasing. -/
theorem apply_order_descending_of_sorted (fixes : List Fix)
    (h : List.Chain' (fun a b : Nat => a ≤ b) (fixes.map (fun f => f.1))) :
    List.Chain' (fun a b : Nat => b ≤ a) (applyOrder fixes) := by
  unfold applyOrder
  rw [List.map_reverse]
  exact List.chain'_reverse.mpr h

/-- Witness for C3 amended at a concrete sorted fix list. -/
theorem apply_order_descending_of_sorted_witness :
    List.Chain' (fun a b : Nat => b ≤ a)
      (applyOrder [(0, cs "x", cs "y"), (1, cs "z", cs "w")]) :=
  apply_order_descending_of_sorted _ (by simp [List.chain'_cons])

/-! ### C4: process exit code -/

/-- C4 counterexample: in fix mode, a file with both an auto-fixable
rule-1 violation and a report-only rule-2 violation exits with code 0
once the single fix is written, although the rule-2 violation remains
unaddressed. -/
theorem main_exit_zero_despite_report_only_cex :
    validate_file [cs "0001"] false (cs "[a](x.md)\n[b](/9999)") =
      some ([.mdFile 1 (cs "a") (cs "x.md"),
             .nonExistentAep 2 (cs "b") (cs "/9999")],
        [(0, cs "[a](x.md)\n", cs "[a](x)\n")]) ∧
    mainExit [([.mdFile 1 (cs "a") (cs "x.md"),
                .nonExistentAep 2 (cs "b") (cs "/9999")],
        [(0, cs "[a](x.md)\n", cs "[a](x)\n")])] false (fun _ => true) = 0 := by
  constructor
  · decide
  · decide

/-- C4 amended: the exit code is 0 exactly when no violation is found,
or when fix mode collected at least one file with fixes and every
fix-write succeeds; report-only violations do not force a non-zero exit
once any fix was applied successfully. -/
theorem mainExit_zero_iff (results : List (List Err × List Fix))
    (check_only : Bool) (writeOk : Nat → Bool) :
    mainExit results check_only writeOk = 0 ↔
      (all_errors results = [] ∨
        (check_only = false ∧ all_fixes results ≠ [] ∧
          ∀ i, i < (all_fixes results).length → writeOk i = true)) := by
  unfold mainExit
  split_ifs with h1 h2 h3
  · simp [h1]
  · simp only [List.all_eq_true, List.mem_range] at h3
    exact iff_of_true rfl (Or.inr ⟨h2.1, h2.2, h3⟩)
  · simp only [List.all_eq_true, List.mem_range] at h3
    refine iff_of_false (by simp) ?_
    rintro (he | ⟨_, _, hall⟩)
    · exact h1 he
    · exact h3 hall
  · refine iff_of_false (by simp) ?_
    rintro (he | ⟨hco, hfx, _⟩)
    · exact h1 he
    · exact h2 ⟨hco, hfx⟩

/-! ### C9: zero-fix files are never rewritten -/

/-- C9: a file whose validation produced no fixes is never among the
files whose rewrite `main` attempts, in any mode and for any outcome of
the writes. -/
theorem zero_fix_file_not_written (results : List (List Err × List Fix))
    (check_only : Bool) (writeOk : Nat → Bool) (i : Nat)
    (hi : i < results.length) (hz : (results.getD i ([], [])).2 = []) :
    i ∉ writtenFiles results check_only writeOk := by
  intro hmem
  simp only [writtenFiles] at hmem
  split at hmem
  case isFalse => simp at hmem
  case isTrue h =>
    obtain ⟨q, hq, hqi⟩ := List.mem_map.mp hmem
    have hq2 : q ∈ all_fixes results := List.take_subset _ _ hq
    obtain ⟨j, g⟩ := q
    obtain ⟨m, hm, hjm, hget, hne⟩ := fixPairsAux_mem hq2
    have hmi : m = i := by simpa [hjm] using hqi
    subst hmi
    exact hne (hget.symm.trans hz)

/-- Witness for C9: with one fixable file and one clean file, the clean
file's index is not written. -/
theorem zero_fix_file_not_written_witness :
    1 ∉ writtenFiles
      [([Err.selfRef 1 (cs "aep-5")], [(0, cs "[aep-5][aep-5]", cs "aep-5")]),
       ([], [])] false (fun _ => true) :=
  zero_fix_file_not_written _ false (fun _ => true) 1 (by decide) (by decide)

/-! ### C1: counterexample to the single-occurrence rewrite claim -/

/-- C1 counterexample: on the line `See x.md, also [a](x.md)` the single
located link yields exactly one rule-1 violation, but the proposed
replacement strips `.md` from BOTH occurrences of the URL substring: it
differs from the line with only the link occurrence stripped and from the
line with only the prose occurrence stripped, so it is not the original
line with that URL's final three characters removed and otherwise
byte-identical. -/
theorem md_fix_rewrites_all_occurrences_cex :
    validate_file [] false (cs "See x.md, also [a](x.md)") =
      some ([.mdFile 1 (cs "a") (cs "x.md")],
        [(0, cs "See x.md, also [a](x.md)", cs "See x, also [a](x)")]) ∧
    cs "See x, also [a](x)" ≠ cs "See x.md, also [a](x)" ∧
    cs "See x, also [a](x)" ≠ cs "See x, also [a](x.md)" := by
  refine ⟨by decide, by decide, by decide⟩

/-! ### C2: counterexample to the textually-identical claim -/

/-- C2 counterexample: `find_self_reference_links` reports a match on
`[AEP-5][aep-5]`, whose two bracketed identifiers are not textually
identical (only case-insensitively equal), and the fix it produces leaves
the line unchanged instead of replacing the matched substring. -/
theorem self_ref_case_insensitive_cex :
    find_self_reference_links (cs "[AEP-5][aep-5]") = [(1, cs "AEP-5")] ∧
    cs "AEP-5" ≠ cs "aep-5" ∧
    validate_file [] false (cs "[AEP-5][aep-5]") =
      some ([.selfRef 1 (cs "AEP-5")],
        [(0, cs "[AEP-5][aep-5]", cs "[AEP-5][aep-5]")]) := by
  refine ⟨by decide, by decide, by decide⟩

/-! ### C5: fix mode is not idempotent -/

/-- C5: on the file `[a](x.md.md)` one fix-mode pass strips only one
`.md`, leaving `[a](x.md)`, which the next pass still flags under rule 1
and rewrites again — so running fix mode twice differs from running it
once, contradicting the idempotence the code's own rule list promises. -/
theorem fix_mode_not_idempotent_bug :
    runFix [] (cs "[a](x.md.md)") = some (cs "[a](x.md)") ∧
    runFix [] (cs "[a](x.md)") = some (cs "[a](x)") ∧
    validate_file [] false (cs "[a](x.md)") =
      some ([.mdFile 1 (cs "a") (cs "x.md")],
        [(0, cs "[a](x.md)", cs "[a](x)")]) := by
  refine ⟨by decide, by decide, by decide⟩

/-! ### C6: the reference-definition construct is not removed -/

/-- C6: on the line `[aep-9]: ./0009.md` the rule-4 removal fix is
applied before the rule-1 `.md` fix (reverse collection order), so the
`.md` fix overwrites it and the pass leaves `[aep-9]: ./0009` instead of
an empty line; re-running fix mode reports a further rule-4 violation for
that line. -/
theorem ref_def_not_removed_bug :
    runFix [cs "0009"] (cs "[aep-9]: ./0009.md\n") =
      some (cs "[aep-9]: ./0009\n") ∧
    validate_file [cs "0009"] false (cs "[aep-9]: ./0009\n") =
      some ([.refIdent 1 (cs "aep-9") (cs "./0009")],
        [(0, cs "[aep-9]: ./0009\n", cs "")]) ∧
    runFix [cs "0009"] (cs "[aep-9]: ./0009\n") = some (cs "\n") := by
  refine ⟨by decide, by decide, by decide⟩

/-! ### Alignment of the two line decompositions under `NLOnly` -/

theorem splitOnNL_ne_nil : ∀ s : Line, splitOnNL s ≠ []
  | [] => by simp [splitOnNL]
  | c :: rest => by
    by_cases hc : c = '\n' <;> simp only [splitOnNL, hc, if_true, if_false]
    · simp
    · cases h : splitOnNL rest <;> simp [hc]

theorem skeAux_break (acc : Line) (c : Char) (rest : Line)
    (hb : pyLineBreak c = true) :
    skeAux acc (c :: rest) = (acc.reverse ++ [c]) :: skeAux [] rest := by
  simp [skeAux, hb]

theorem skeAux_nonbreak (acc : Line) (c : Char) (rest : Line)
    (h : pyLineBreak c = false) :
    skeAux acc (c :: rest) = skeAux (c :: acc) rest := by
  simp [skeAux, h]

theorem consHead_consHead (p q : Line) (L : List Line) :
    consHead p (consHead q L) = consHead (p ++ q) L := by
  cases L with
  | nil =>
    by_cases hq : q = [] <;> by_cases hp : p = [] <;>
      simp [consHead, hp, hq]
  | cons l ls => simp [consHead]

theorem skeAux_acc :
    ∀ (s : Line), NLOnly s → ∀ acc : Line,
      skeAux acc s = consHead acc.reverse (skeAux [] s)
  | [], _, acc => by
    by_cases ha : acc = [] <;>
      simp [skeAux, consHead, ha, List.reverse_eq_nil_iff]
  | c :: rest, h, acc => by
    have hrest : NLOnly rest := fun x hx => h x (List.mem_cons_of_mem c hx)
    by_cases hb : pyLineBreak c = true
    · rw [skeAux_break acc c rest hb, skeAux_break [] c rest hb]
      simp [consHead]
    · have hb' : pyLineBreak c = false := by
        rcases Bool.eq_false_or_eq_true (pyLineBreak c) with h1 | h1
        · exact absurd h1 hb
        · exact h1
      rw [skeAux_nonbreak acc c rest hb', skeAux_nonbreak [] c rest hb']
      rw [skeAux_acc rest hrest (c :: acc), skeAux_acc rest hrest [c]]
      rw [consHead_consHead]
      simp

theorem keOf_cons_consHead (c : Char) (l : Line) (ls : List Line) :
    keOf ((c :: l) :: ls) = consHead [c] (keOf (l :: ls)) := by
  cases ls with
  | nil => by_cases hl : l = [] <;> simp [keOf, hl, consHead]
  | cons l2 ls2 => simp [keOf, consHead]

/-- Under `NLOnly`, the keepends decomposition is the `chr(10)` split
with the separators re-attached (`keOf`). -/
theorem splitlines_eq_keOf :
    ∀ (s : Line), NLOnly s → pySplitlinesKeepends s = keOf (splitOnNL s)
  | [], _ => by simp [pySplitlinesKeepends, skeAux, splitOnNL, keOf]
  | c :: rest, h => by
    have hrest : NLOnly rest := fun x hx => h x (List.mem_cons_of_mem c hx)
    have ihr := splitlines_eq_keOf rest hrest
    unfold pySplitlinesKeepends at ihr ⊢
    obtain ⟨l, ls, hls⟩ : ∃ l ls, splitOnNL rest = l :: ls := by
      cases hsp : splitOnNL rest with
      | nil => exact absurd hsp (splitOnNL_ne_nil rest)
      | cons l ls => exact ⟨l, ls, rfl⟩
    by_cases hc : c = '\n'
    · subst hc
      rw [skeAux_break [] '\n' rest (by decide), ihr]
      simp only [splitOnNL, if_true]
      rw [hls]
      simp [keOf]
    · have hb : pyLineBreak c = false := by
        rcases Bool.eq_false_or_eq_true (pyLineBreak c) with h1 | h1
        · exact absurd (h c (List.mem_cons_self c rest) h1) hc
        · exact h1
      rw [skeAux_nonbreak [] c rest hb]
      rw [skeAux_acc rest hrest [c], ihr]
      simp only [splitOnNL, hc, if_false]
      rw [hls, keOf_cons_consHead]
      simp

theorem keOf_get? :
    ∀ (ls : List Line) (i : Nat),
      (i + 1 < ls.length → (keOf ls).get? i = some (ls.getD i [] ++ ['\n'])) ∧
      (i + 1 = ls.length → ls.getD i [] ≠ [] →
        (keOf ls).get? i = some (ls.getD i []))
  | [], i => by simp
  | [l], i => by
    refine ⟨fun h => by simp at h, fun h hne => ?_⟩
    have hi : i = 0 := by simpa using h
    subst hi
    have hl : l ≠ [] := by simpa using hne
    simp [keOf, hl]
  | l :: l2 :: ls2, i => by
    cases i with
    | zero =>
      refine ⟨fun _ => ?_, fun h => by simp at h⟩
      simp [keOf]
    | succ k =>
      obtain ⟨ih1, ih2⟩ := keOf_get? (l2 :: ls2) k
      refine ⟨fun h => ?_, fun h hne => ?_⟩
      · have hk : k + 1 < (l2 :: ls2).length := by simpa using h
        simpa [keOf] using ih1 hk
      · have hk : k + 1 = (l2 :: ls2).length := by simpa using h
        have hne2 : (l2 :: ls2).getD k [] ≠ [] := by simpa using hne
        simpa [keOf] using ih2 hk hne2

/-! ### Elimination and counting lemmas for the per-link contributions -/

theorem linkEF_elim {aeps : List Line} {co : Bool} {rl : List Nat}
    {lwn : List Line} {ln : Nat} {t u : Line} {e : List Err} {f : List Fix}
    (hx : linkEF aeps co rl lwn (ln, t, u) = some (e, f)) :
    ∃ orig sch nl,
      lwn.get? (ln - 1) = some orig ∧
      pyUrlsplit u = some (sch, nl) ∧
      e = rule1Errs ln t u ++ rule2Errs aeps ln t u ++
          rule3Errs sch nl ln t u ++ rule4Errs rl ln t u ∧
      f = rule1Fixes co ln orig u ++ rule4Fixes co rl ln orig t u := by
  cases hget : lwn.get? (ln - 1) with
  | none =>
    simp only [linkEF, hget] at hx
    exact Option.noConfusion hx
  | some orig =>
    cases hp : pyUrlsplit u with
    | none =>
      simp only [linkEF, hget, hp] at hx
      exact Option.noConfusion hx
    | some p =>
      obtain ⟨sch, nl⟩ := p
      simp only [linkEF, hget, hp, Option.some.injEq, Prod.mk.injEq] at hx
      exact ⟨orig, sch, nl, rfl, rfl, hx.1.symm, hx.2.symm⟩

theorem selfEF_elim {co : Bool} {lwn : List Line} {x : Nat × Line}
    {e : List Err} {f : List Fix} (hx : selfEF co lwn x = some (e, f)) :
    ∃ orig, lwn.get? (x.1 - 1) = some orig ∧ e = [Err.selfRef x.1 x.2] ∧
      f = if co then []
          else [(x.1 - 1, orig, pyReplace orig (selfPat x.2) x.2)] := by
  obtain ⟨ln, t⟩ := x
  cases hget : lwn.get? (ln - 1) with
  | none =>
    simp only [selfEF, hget] at hx
    exact Option.noConfusion hx
  | some orig =>
    simp only [selfEF, hget, Option.some.injEq, Prod.mk.injEq] at hx
    exact ⟨orig, rfl, hx.1.symm, hx.2.symm⟩

theorem rule1Errs_count_md {ln' ln : Nat} {t' u' t u : Line}
    (hu : mdCond u = true) :
    (rule1Errs ln' t' u').count (Err.mdFile ln t u) =
      if ((ln', t', u') : Nat × Line × Line) = (ln, t, u) then 1 else 0 := by
  by_cases heq : ((ln', t', u') : Nat × Line × Line) = (ln, t, u)
  · rw [if_pos heq]
    have hcomp : ln' = ln ∧ t' = t ∧ u' = u := by simpa [Prod.ext_iff] using heq
    obtain ⟨rfl, rfl, rfl⟩ := hcomp
    simp [rule1Errs, hu, List.count_singleton']
  · rw [if_neg heq]
    have hcomp : ¬(ln' = ln ∧ t' = t ∧ u' = u) := by
      simpa [Prod.ext_iff] using heq
    unfold rule1Errs
    split_ifs with hm
    · simp [List.count_singleton', hcomp]
    · simp

theorem rule2Errs_count_md {aeps : List Line} {ln' ln : Nat} {t' u' t u : Line} :
    (rule2Errs aeps ln' t' u').count (Err.mdFile ln t u) = 0 := by
  cases h : aepRefNum u' with
  | none => simp [rule2Errs, h]
  | some n =>
    by_cases hc : n ∈ aeps <;>
      simp [rule2Errs, h, hc, List.count_singleton']

theorem rule3Errs_count_md {sch nl : Line} {ln' ln : Nat} {t' u' t u : Line} :
    (rule3Errs sch nl ln' t' u').count (Err.mdFile ln t u) = 0 := by
  unfold rule3Errs
  split_ifs <;> simp [List.count_singleton']

theorem rule4Errs_count_md {rl : List Nat} {ln' ln : Nat} {t' u' t u : Line} :
    (rule4Errs rl ln' t' u').count (Err.mdFile ln t u) = 0 := by
  unfold rule4Errs
  split_ifs <;> simp [List.count_singleton']

theorem rule1Errs_count_nonEx {ln' ln : Nat} {t' u' t u : Line} :
    (rule1Errs ln' t' u').count (Err.nonExistentAep ln t u) = 0 := by
  unfold rule1Errs
  split_ifs <;> simp [List.count_singleton']

theorem rule2Errs_count_nonEx {aeps : List Line} {ln' ln : Nat}
    {t' u' t u n : Line} (hn : aepRefNum u = some n)
    (hc : aeps.contains n = false) :
    (rule2Errs aeps ln' t' u').count (Err.nonExistentAep ln t u) =
      if ((ln', t', u') : Nat × Line × Line) = (ln, t, u) then 1 else 0 := by
  by_cases heq : ((ln', t', u') : Nat × Line × Line) = (ln, t, u)
  · rw [if_pos heq]
    have hcomp : ln' = ln ∧ t' = t ∧ u' = u := by simpa [Prod.ext_iff] using heq
    obtain ⟨rfl, rfl, rfl⟩ := hcomp
    have hm : ¬ n ∈ aeps := by simpa using hc
    simp [rule2Errs, hn, hm, List.count_singleton']
  · rw [if_neg heq]
    have hcomp : ¬(ln' = ln ∧ t' = t ∧ u' = u) := by
      simpa [Prod.ext_iff] using heq
    cases h : aepRefNum u' with
    | none => simp [rule2Errs, h]
    | some m =>
      by_cases hcm : m ∈ aeps <;>
        simp [rule2Errs, h, hcm, List.count_singleton', hcomp]

theorem rule3Errs_count_nonEx {sch nl : Line} {ln' ln : Nat} {t' u' t u : Line} :
    (rule3Errs sch nl ln' t' u').count (Err.nonExistentAep ln t u) = 0 := by
  unfold rule3Errs
  split_ifs <;> simp [List.count_singleton']

theorem rule4Errs_count_nonEx {rl : List Nat} {ln' ln : Nat} {t' u' t u : Line} :
    (rule4Errs rl ln' t' u').count (Err.nonExistentAep ln t u) = 0 := by
  unfold rule4Errs
  split_ifs <;> simp [List.count_singleton']

theorem rule1Errs_count_http {ln' ln : Nat} {t' u' t u : Line} :
    (rule1Errs ln' t' u').count (Err.invalidHttp ln t u) = 0 := by
  unfold rule1Errs
  split_ifs <;> simp [List.count_singleton']

theorem rule2Errs_count_http {aeps : List Line} {ln' ln : Nat} {t' u' t u : Line} :
    (rule2Errs aeps ln' t' u').count (Err.invalidHttp ln t u) = 0 := by
  cases h : aepRefNum u' with
  | none => simp [rule2Errs, h]
  | some n =>
    by_cases hc : n ∈ aeps <;>
      simp [rule2Errs, h, hc, List.count_singleton']

theorem rule4Errs_count_http {rl : List Nat} {ln' ln : Nat} {t' u' t u : Line} :
    (rule4Errs rl ln' t' u').count (Err.invalidHttp ln t u) = 0 := by
  unfold rule4Errs
  split_ifs <;> simp [List.count_singleton']

theorem rule3Errs_count_http {sch' nl' sch nl : Line} {ln' ln : Nat}
    {t' u' t u : Line}
    (hdet : u' = u → (sch' = sch ∧ nl' = nl))
    (hs : sch = cs "http" ∨ sch = cs "https") :
    (rule3Errs sch' nl' ln' t' u').count (Err.invalidHttp ln t u) =
      if ((ln', t', u') : Nat × Line × Line) = (ln, t, u) ∧ nl = [] then 1
      else 0 := by
  by_cases heq : ((ln', t', u') : Nat × Line × Line) = (ln, t, u)
  · have hcomp : ln' = ln ∧ t' = t ∧ u' = u := by simpa [Prod.ext_iff] using heq
    obtain ⟨rfl, rfl, rfl⟩ := hcomp
    obtain ⟨rfl, rfl⟩ := hdet rfl
    by_cases hnl : nl' = []
    · simp [rule3Errs, hs, hnl, List.count_singleton']
    · simp [rule3Errs, hnl, List.count_singleton']
  · have hcomp : ¬(ln' = ln ∧ t' = t ∧ u' = u) := by
      simpa [Prod.ext_iff] using heq
    rw [if_neg (fun hand => heq hand.1)]
    unfold rule3Errs
    split_ifs with hm
    · simp [List.count_singleton', hcomp]
    · simp

theorem linkEF_count_mdFile {aeps : List Line} {co : Bool} {rl : List Nat}
    {lwn : List Line} {ln : Nat} {t u : Line} (hu : mdCond u = true)
    {x : Nat × Line × Line} {e : List Err} {f : List Fix}
    (hx : linkEF aeps co rl lwn x = some (e, f)) :
    e.count (Err.mdFile ln t u) = if x = (ln, t, u) then 1 else 0 := by
  obtain ⟨ln', t', u'⟩ := x
  obtain ⟨orig, sch, nl, _, _, hee, _⟩ := linkEF_elim hx
  subst hee
  simp only [List.count_append]
  rw [rule1Errs_count_md hu, rule2Errs_count_md, rule3Errs_count_md,
    rule4Errs_count_md]
  simp

theorem linkEF_count_nonEx {aeps : List Line} {co : Bool} {rl : List Nat}
    {lwn : List Line} {ln : Nat} {t u n : Line}
    (hn : aepRefNum u = some n) (hc : aeps.contains n = false)
    {x : Nat × Line × Line} {e : List Err} {f : List Fix}
    (hx : linkEF aeps co rl lwn x = some (e, f)) :
    e.count (Err.nonExistentAep ln t u) = if x = (ln, t, u) then 1 else 0 := by
  obtain ⟨ln', t', u'⟩ := x
  obtain ⟨orig, sch, nl, _, _, hee, _⟩ := linkEF_elim hx
  subst hee
  simp only [List.count_append]
  rw [rule1Errs_count_nonEx, rule2Errs_count_nonEx hn hc, rule3Errs_count_nonEx,
    rule4Errs_count_nonEx]
  simp

theorem linkEF_count_http {aeps : List Line} {co : Bool} {rl : List Nat}
    {lwn : List Line} {ln : Nat} {t u sch nl : Line}
    (hp : pyUrlsplit u = some (sch, nl))
    (hs : sch = cs "http" ∨ sch = cs "https")
    {x : Nat × Line × Line} {e : List Err} {f : List Fix}
    (hx : linkEF aeps co rl lwn x = some (e, f)) :
    e.count (Err.invalidHttp ln t u) =
      if x = (ln, t, u) ∧ nl = [] then 1 else 0 := by
  obtain ⟨ln', t', u'⟩ := x
  obtain ⟨orig, sch', nl', hget, hp', hee, _⟩ := linkEF_elim hx
  subst hee
  have hdet : u' = u → (sch' = sch ∧ nl' = nl) := by
    intro huu
    subst huu
    rw [hp] at hp'
    simp only [Option.some.injEq, Prod.mk.injEq] at hp'
    exact ⟨hp'.1.symm, hp'.2.symm⟩
  simp only [List.count_append]
  rw [rule1Errs_count_http, rule2Errs_count_http, rule3Errs_count_http hdet hs,
    rule4Errs_count_http]
  simp

theorem sum_map_ite_const {α : Type} [BEq α] [LawfulBEq α] [DecidableEq α]
    (a : α) (c : Nat) :
    ∀ xs : List α, (xs.map (fun x => if x = a then c else 0)).sum = c * xs.count a
  | [] => by simp
  | x :: xs => by
    by_cases h : x = a <;>
      simp [h, sum_map_ite_const a c xs, List.count_cons] <;> ring

theorem validate_file_elim {aeps : List Line} {co : Bool} {content : Line}
    {es : List Err} {fs : List Fix}
    (h : validate_file aeps co content = some (es, fs)) :
    ∃ e1 f1 e2 f2,
      processEF (linkEF aeps co ((find_reference_links content).map (fun r => r.1))
          (pySplitlinesKeepends content))
        (find_markdown_links content ++ find_reference_links content) =
          some (e1, f1) ∧
      processEF (selfEF co (pySplitlinesKeepends content))
        (find_self_reference_links content) = some (e2, f2) ∧
      es = e1 ++ e2 ∧ fs = f1 ++ f2 := by
  simp only [validate_file] at h
  split at h
  next e1 f1 e2 f2 heq1 heq2 =>
    simp only [Option.some.injEq, Prod.mk.injEq] at h
    exact ⟨e1, f1, e2, f2, heq1, heq2, h.1.symm, h.2.symm⟩
  next => exact Option.noConfusion h

theorem validate_count {aeps : List Line} {co : Bool} {content : Line}
    {es : List Err} {fs : List Fix}
    (h : validate_file aeps co content = some (es, fs))
    (target : Err) (tl : Nat × Line × Line) (c : Nat)
    (hind : ∀ x e f,
      linkEF aeps co ((find_reference_links content).map (fun r => r.1))
        (pySplitlinesKeepends content) x = some (e, f) →
      e.count target = if x = tl then c else 0)
    (hns : ∀ ln t, target ≠ Err.selfRef ln t) :
    es.count target =
      c * (find_markdown_links content ++ find_reference_links content).count tl := by
  obtain ⟨e1, f1, e2, f2, hp1, hp2, hes, hfs⟩ := validate_file_elim h
  subst hes
  obtain ⟨hall1, he1, hf1⟩ := processEF_some hp1
  obtain ⟨hall2, he2, hf2⟩ := processEF_some hp2
  rw [List.count_append]
  have h2z : e2.count target = 0 := by
    rw [he2, count_flatMap]
    apply List.sum_eq_zero
    intro m hm
    obtain ⟨x, hx, hxm⟩ := List.mem_map.mp hm
    have hsome := hall2 x hx
    obtain ⟨⟨ex, fx⟩, hex⟩ := Option.isSome_iff_exists.mp hsome
    obtain ⟨orig, _, hee, _⟩ := selfEF_elim hex
    rw [← hxm, hex]
    simp only [Option.getD_some]
    rw [hee, List.count_singleton', if_neg]
    intro hcon
    exact hns x.1 x.2 hcon.symm
  rw [h2z, Nat.add_zero, he1, count_flatMap]
  have hfg : ∀ x ∈ find_markdown_links content ++ find_reference_links content,
      (((linkEF aeps co ((find_reference_links content).map (fun r => r.1))
          (pySplitlinesKeepends content) x).getD ([], [])).1).count target =
        if x = tl then c else 0 := by
    intro x hx
    have hsome := hall1 x hx
    obtain ⟨⟨ex, fx⟩, hex⟩ := Option.isSome_iff_exists.mp hsome
    rw [hex]
    simp only [Option.getD_some]
    exact hind x ex fx hex
  rw [List.map_congr_left hfg, sum_map_ite_const]

theorem mdCond_false_of_aepRef {u n : Line} (hn : aepRefNum u = some n) :
    mdCond u = false := by
  have hshape : ∃ pre ds, u = pre ++ ds ∧ ds ≠ [] ∧ ds.all Char.isDigit ∧
      '\x64' ∉ pre := by
    unfold aepRefNum at hn
    split at hn
    · rename_i ds
      split_ifs at hn with hcond
      exact ⟨['.', '/'], ds, rfl, hcond.1, by simpa using hcond.2, by decide⟩
    · rename_i ds
      split_ifs at hn with hcond
      exact ⟨['/'], ds, rfl, hcond.1, by simpa using hcond.2, by decide⟩
    · exact Option.noConfusion hn
  obtain ⟨pre, ds, rfl, hne, hall, hpre⟩ := hshape
  rcases Bool.eq_false_or_eq_true (mdCond (pre ++ ds)) with hT | hF
  swap
  · exact hF
  exfalso
  have hsuf : (cs ".md").isSuffixOf (pre ++ ds) = true := by
    have := hT
    unfold mdCond at this
    exact (Bool.and_eq_true _ _).mp this |>.1
  have hsfx : cs ".md" <:+ pre ++ ds := List.isSuffixOf_iff_suffix.mp hsuf
  obtain ⟨p, hp⟩ := hsfx
  have hd : '\x64' ∈ pre ++ ds := by
    rw [← hp]
    simp [cs]
  rcases List.mem_append.mp hd with hdp | hdd
  · exact hpre hdp
  · have := (List.all_eq_true.mp hall) '\x64' hdd
    simp at this

theorem origLine_of_NLOnly {content : Line} {i : Nat} {orig : Line}
    (hnl : NLOnly content)
    (hget : (pySplitlinesKeepends content).get? i = some orig)
    (hne : i + 1 = (splitOnNL content).length → (splitOnNL content).getD i [] ≠ [])
    (hi : i < (splitOnNL content).length) :
    orig = (splitOnNL content).getD i [] ++ ['\n'] ∨
    orig = (splitOnNL content).getD i [] := by
  rw [splitlines_eq_keOf content hnl] at hget
  obtain ⟨k1, k2⟩ := keOf_get? (splitOnNL content) i
  by_cases hlt : i + 1 < (splitOnNL content).length
  · left
    rw [k1 hlt] at hget
    exact ((Option.some.injEq _ _).mp hget).symm
  · right
    have hle : i + 1 = (splitOnNL content).length := by omega
    rw [k2 hle (hne hle)] at hget
    exact ((Option.some.injEq _ _).mp hget).symm

/-! ### C1 amended, C7 and C8: per-link rule behaviour -/

/-- C1 amended: for every located link (inline or reference-definition)
whose URL ends in `.md` and does not start with the GitHub prefix,
`validate_file` emits exactly one rule-1 violation per occurrence of that
link, and proposes the replacement line obtained from the stored original
line by stripping the final three characters from every occurrence of the
URL substring (Python `str.replace` semantics); when the content's only
line breaks are `chr(10)`, the stored original line is the link's line,
with its trailing newline when one exists. -/
theorem md_link_violation_and_fix
    (aeps : List Line) (content : Line) (es : List Err) (fs : List Fix)
    (ln : Nat) (t u : Line)
    (h : validate_file aeps false content = some (es, fs))
    (hmem : (ln, t, u) ∈
      find_markdown_links content ++ find_reference_links content)
    (h1 : (cs ".md").isSuffixOf u = true)
    (h2 : (cs "https://github.com/").isPrefixOf u = false) :
    es.count (Err.mdFile ln t u) =
      (find_markdown_links content ++ find_reference_links content).count
        (ln, t, u) ∧
    ∃ orig, (pySplitlinesKeepends content).get? (ln - 1) = some orig ∧
      (ln - 1, orig, pyReplace orig u (u.take (u.length - 3))) ∈ fs ∧
      (NLOnly content →
        orig = (splitOnNL content).getD (ln - 1) [] ++ ['\n'] ∨
        orig = (splitOnNL content).getD (ln - 1) []) := by
  have hmd : mdCond u = true := by simp [mdCond, h1, h2]
  constructor
  · have hcount := validate_count h (Err.mdFile ln t u) (ln, t, u) 1
      (fun x e f hx => linkEF_count_mdFile hmd hx)
      (fun _ _ => by simp)
    simpa using hcount
  · obtain ⟨e1, f1, e2, f2, hp1, hp2, hes, hfs⟩ := validate_file_elim h
    obtain ⟨hall1, he1, hf1⟩ := processEF_some hp1
    have hsome := hall1 _ hmem
    obtain ⟨⟨ex, fx⟩, hex⟩ := Option.isSome_iff_exists.mp hsome
    obtain ⟨orig, sch, nl, hget, hpu, hee, hff⟩ := linkEF_elim hex
    refine ⟨orig, hget, ?_, ?_⟩
    · have hfix : (ln - 1, orig, pyReplace orig u (u.take (u.length - 3))) ∈ fx := by
        rw [hff]
        simp [rule1Fixes, hmd]
      have hmem1 : (ln - 1, orig, pyReplace orig u (u.take (u.length - 3))) ∈ f1 := by
        rw [hf1]
        exact List.mem_flatMap.mpr ⟨(ln, t, u), hmem, by rw [hex]; simpa using hfix⟩
      rw [hfs]
      exact List.mem_append.mpr (Or.inl hmem1)
    · intro hnl
      rcases List.mem_append.mp hmem with hm | hm
      · obtain ⟨i, hi, hln, ha⟩ := withLineNums_mem hm
        have hidx : ln - 1 = i := by omega
        rw [hidx] at hget ⊢
        refine origLine_of_NLOnly hnl hget (fun _ => ?_) hi
        intro h0
        rw [h0] at ha
        simp [scanInline, scanInlineF] at ha
      · obtain ⟨i, hi, hln, ha⟩ := withLineNums_mem hm
        have hidx : ln - 1 = i := by omega
        rw [hidx] at hget ⊢
        refine origLine_of_NLOnly hnl hget (fun _ => ?_) hi
        intro h0
        rw [h0] at ha
        simp [pyStrip, refMatch] at ha

/-- Witness for C1 amended at the one-line file `[a](x.md)`. -/
theorem md_link_violation_and_fix_witness :
    ([Err.mdFile 1 (cs "a") (cs "x.md")] : List Err).count
        (Err.mdFile 1 (cs "a") (cs "x.md")) =
      (find_markdown_links (cs "[a](x.md)") ++
        find_reference_links (cs "[a](x.md)")).count (1, cs "a", cs "x.md") ∧
    ∃ orig,
      (pySplitlinesKeepends (cs "[a](x.md)")).get? (1 - 1) = some orig ∧
      (1 - 1, orig,
        pyReplace orig (cs "x.md") ((cs "x.md").take ((cs "x.md").length - 3))) ∈
        ([(0, cs "[a](x.md)", cs "[a](x)")] : List Fix) ∧
      (NLOnly (cs "[a](x.md)") →
        orig = (splitOnNL (cs "[a](x.md)")).getD (1 - 1) [] ++ ['\n'] ∨
        orig = (splitOnNL (cs "[a](x.md)")).getD (1 - 1) []) :=
  md_link_violation_and_fix [] (cs "[a](x.md)")
    [Err.mdFile 1 (cs "a") (cs "x.md")] [(0, cs "[a](x.md)", cs "[a](x)")]
    1 (cs "a") (cs "x.md") (by decide) (by decide) (by decide) (by decide)

/-- C7: for every located link whose URL has the local-reference shape
(optional dot, slash, digit run) with a digit run outside the catalog,
`validate_file` emits exactly one non-existent-AEP violation per
occurrence of that link; the rule-2 check contributes no fix, so the link
contributes no fix at all unless rule 4 also fires for it (rules 1 and 3
cannot fire on a URL of this shape). -/
theorem nonexistent_aep_violation_no_fix
    (aeps : List Line) (content : Line) (es : List Err) (fs : List Fix)
    (ln : Nat) (t u n : Line)
    (h : validate_file aeps false content = some (es, fs))
    (hmem : (ln, t, u) ∈
      find_markdown_links content ++ find_reference_links content)
    (hn : aepRefNum u = some n)
    (hc : aeps.contains n = false) :
    es.count (Err.nonExistentAep ln t u) =
      (find_markdown_links content ++ find_reference_links content).count
        (ln, t, u) ∧
    ∃ e0 f0,
      linkEF aeps false ((find_reference_links content).map (fun r => r.1))
        (pySplitlinesKeepends content) (ln, t, u) = some (e0, f0) ∧
      e0.count (Err.nonExistentAep ln t u) = 1 ∧
      (rule4Cond ((find_reference_links content).map (fun r => r.1)) ln t =
          false → f0 = []) := by
  constructor
  · have hcount := validate_count h (Err.nonExistentAep ln t u) (ln, t, u) 1
      (fun x e f hx => linkEF_count_nonEx hn hc hx)
      (fun _ _ => by simp)
    simpa using hcount
  · obtain ⟨e1, f1, e2, f2, hp1, hp2, hes, hfs⟩ := validate_file_elim h
    obtain ⟨hall1, he1, hf1⟩ := processEF_some hp1
    have hsome := hall1 _ hmem
    obtain ⟨⟨ex, fx⟩, hex⟩ := Option.isSome_iff_exists.mp hsome
    refine ⟨ex, fx, hex, ?_, ?_⟩
    · rw [linkEF_count_nonEx hn hc hex]
      simp
    · intro h4
      obtain ⟨orig, sch, nl, hget, hpu, hee, hff⟩ := linkEF_elim hex
      have hmd : mdCond u = false := mdCond_false_of_aepRef hn
      rw [hff]
      simp [rule1Fixes, rule4Fixes, hmd, h4]

/-- Witness for C7 at the one-line file `[b](/9999)` with catalog
`{0001}`. -/
theorem nonexistent_aep_violation_no_fix_witness :
    ([Err.nonExistentAep 1 (cs "b") (cs "/9999")] : List Err).count
        (Err.nonExistentAep 1 (cs "b") (cs "/9999")) =
      (find_markdown_links (cs "[b](/9999)") ++
        find_reference_links (cs "[b](/9999)")).count (1, cs "b", cs "/9999") ∧
    ∃ e0 f0,
      linkEF [cs "0001"] false
        ((find_reference_links (cs "[b](/9999)")).map (fun r => r.1))
        (pySplitlinesKeepends (cs "[b](/9999)")) (1, cs "b", cs "/9999") =
        some (e0, f0) ∧
      e0.count (Err.nonExistentAep 1 (cs "b") (cs "/9999")) = 1 ∧
      (rule4Cond ((find_reference_links (cs "[b](/9999)")).map (fun r => r.1))
          1 (cs "b") = false → f0 = []) :=
  nonexistent_aep_violation_no_fix [cs "0001"] (cs "[b](/9999)")
    [Err.nonExistentAep 1 (cs "b") (cs "/9999")] [] 1 (cs "b") (cs "/9999")
    (cs "9999") (by decide) (by decide) (by decide) (by decide)

/-- C8: for every located link whose URL parses with scheme `http` or
`https`, `validate_file` emits exactly one invalid-HTTP-URL violation per
occurrence of that link when the authority is empty, and none when it is
non-empty; the rule-3 check contributes no fix, so the link contributes
no fix at all unless rules 1 or 4 fire for it. -/
theorem invalid_http_violation_no_fix
    (aeps : List Line) (content : Line) (es : List Err) (fs : List Fix)
    (ln : Nat) (t u sch nl : Line)
    (h : validate_file aeps false content = some (es, fs))
    (hmem : (ln, t, u) ∈
      find_markdown_links content ++ find_reference_links content)
    (hp : pyUrlsplit u = some (sch, nl))
    (hs : sch = cs "http" ∨ sch = cs "https") :
    es.count (Err.invalidHttp ln t u) =
      (if nl = [] then
        (find_markdown_links content ++ find_reference_links content).count
          (ln, t, u)
      else 0) ∧
    ∃ e0 f0,
      linkEF aeps false ((find_reference_links content).map (fun r => r.1))
        (pySplitlinesKeepends content) (ln, t, u) = some (e0, f0) ∧
      (nl = [] → e0.count (Err.invalidHttp ln t u) = 1) ∧
      (mdCond u = false →
        rule4Cond ((find_reference_links content).map (fun r => r.1)) ln t =
          false → f0 = []) := by
  constructor
  · have hcount := validate_count h (Err.invalidHttp ln t u) (ln, t, u)
      (if nl = [] then 1 else 0)
      (fun x e f hx => by
        rw [linkEF_count_http hp hs hx]
        by_cases hx1 : x = (ln, t, u) <;> by_cases hnl : nl = [] <;>
          simp [hx1, hnl])
      (fun _ _ => by simp)
    by_cases hnl : nl = [] <;> simp [hnl] at hcount ⊢ <;> simpa using hcount
  · obtain ⟨e1, f1, e2, f2, hp1, hp2, hes, hfs⟩ := validate_file_elim h
    obtain ⟨hall1, he1, hf1⟩ := processEF_some hp1
    have hsome := hall1 _ hmem
    obtain ⟨⟨ex, fx⟩, hex⟩ := Option.isSome_iff_exists.mp hsome
    refine ⟨ex, fx, hex, ?_, ?_⟩
    · intro hnl
      rw [linkEF_count_http hp hs hex]
      simp [hnl]
    · intro hmd h4
      obtain ⟨orig, sch', nl', hget, hpu, hee, hff⟩ := linkEF_elim hex
      rw [hff]
      simp [rule1Fixes, rule4Fixes, hmd, h4]

/-- Witness for C8 at the one-line file `[site](http://)`. -/
theorem invalid_http_violation_no_fix_witness :
    ([Err.invalidHttp 1 (cs "site") (cs "http://")] : List Err).count
        (Err.invalidHttp 1 (cs "site") (cs "http://")) =
      (if ([] : Line) = [] then
        (find_markdown_links (cs "[site](http://)") ++
          find_reference_links (cs "[site](http://)")).count
          (1, cs "site", cs "http://")
      else 0) ∧
    ∃ e0 f0,
      linkEF [] false
        ((find_reference_links (cs "[site](http://)")).map (fun r => r.1))
        (pySplitlinesKeepends (cs "[site](http://)"))
        (1, cs "site", cs "http://") = some (e0, f0) ∧
      (([] : Line) = [] →
        e0.count (Err.invalidHttp 1 (cs "site") (cs "http://")) = 1) ∧
      (mdCond (cs "http://") = false →
        rule4Cond
          ((find_reference_links (cs "[site](http://)")).map (fun r => r.1))
          1 (cs "site") = false → f0 = []) :=
  invalid_http_violation_no_fix [] (cs "[site](http://)")
    [Err.invalidHttp 1 (cs "site") (cs "http://")] [] 1 (cs "site")
    (cs "http://") (cs "http") [] (by decide) (by decide) (by decide)
    (by decide)

/-! ### C2 amended: self-reference matches and their fixes -/

theorem matchSelfRefAt_sound {s id1 id2 rest : Line}
    (h : matchSelfRefAt s = some (id1, id2, rest)) :
    s = '[' :: id1 ++ ']' :: '[' :: id2 ++ ']' :: rest ∧
    ciEqList id1 id2 = true ∧ is_aep_identifier id1 = true := by
  unfold matchSelfRefAt at h
  split at h
  case h_2 => exact Option.noConfusion h
  case h_1 b0 a e p d0 r2 =>
    split_ifs at h with hg
    obtain ⟨hb0, hd0, hci⟩ := hg
    subst hb0; subst hd0
    rcases hsp : r2.span Char.isDigit with ⟨ds, r3⟩
    rw [hsp] at h
    simp only at h
    split_ifs at h with hds
    split at h
    next c1 c2 r4 =>
      split_ifs at h with hc12 hcieq
      obtain ⟨hc1, hc2⟩ := hc12
      subst hc1; subst hc2
      split at h
      next c3 rest' hdrop =>
        split_ifs at h with hc3
        subst hc3
        simp only [Option.some.injEq, Prod.mk.injEq] at h
        obtain ⟨hid1, hid2, hrest⟩ := h
        subst hid1; subst hid2; subst hrest
        have hspan := List.span_eq_take_drop (p := Char.isDigit) r2
        rw [hsp] at hspan
        simp only [Prod.mk.injEq] at hspan
        have hr2 : r2 = ds ++ (']' :: '[' :: r4) := by
          rw [hspan.1, hspan.2, List.takeWhile_append_dropWhile]
        have hr4 : r4 = r4.take (a :: e :: p :: '-' :: ds).length ++
            (']' :: rest') := by
          conv_lhs => rw [← List.take_append_drop
            ((a :: e :: p :: '-' :: ds).length) r4]
          rw [hdrop]
        refine ⟨?_, hcieq, ?_⟩
        · conv_lhs => rw [hr2, hr4]
          simp
        · have hall : ds.all Char.isDigit = true := by
            rw [List.all_eq_true]
            intro x hx
            exact List.mem_takeWhile_imp (hspan.1 ▸ hx)
          simp only [Bool.and_eq_true] at hci
          simp [is_aep_identifier, hci.1.1, hci.1.2, hci.2, hds, hall]
      next => exact Option.noConfusion h
    next => exact Option.noConfusion h

theorem scanSelfRefF_sound :
    ∀ (f : Nat) (s id1 : Line), id1 ∈ scanSelfRefF f s →
      ∃ p id2 q, s = p ++ ('[' :: id1 ++ ']' :: '[' :: id2 ++ ']' :: q) ∧
        ciEqList id1 id2 = true ∧ is_aep_identifier id1 = true
  | 0, s, id1, hmem => by simp [scanSelfRefF] at hmem
  | f + 1, [], id1, hmem => by simp [scanSelfRefF] at hmem
  | f + 1, c :: rest, id1, hmem => by
    rw [scanSelfRefF] at hmem
    cases hm : matchSelfRefAt (c :: rest) with
    | some v =>
      obtain ⟨i1, i2, r⟩ := v
      rw [hm] at hmem
      obtain ⟨hs, hci, hid⟩ := matchSelfRefAt_sound hm
      rcases List.mem_cons.mp hmem with rfl | hmem2
      · exact ⟨[], i2, r, by simpa using hs, hci, hid⟩
      · obtain ⟨p', id2', q', hr, hci', hid'⟩ := scanSelfRefF_sound f r id1 hmem2
        refine ⟨'[' :: i1 ++ ']' :: '[' :: i2 ++ ']' :: p', id2', q', ?_, hci', hid'⟩
        rw [hs, hr]
        simp
    | none =>
      rw [hm] at hmem
      obtain ⟨p', id2', q', hr, hci', hid'⟩ := scanSelfRefF_sound f rest id1 hmem
      exact ⟨c :: p', id2', q', by rw [hr]; simp, hci', hid'⟩

theorem pyReplaceF_eq_self_of_no_match {old new : Line} :
    ∀ (f : Nat) (s : Line), ¬ old <:+: s → pyReplaceF old new f s = s
  | 0, s, _ => rfl
  | f + 1, s, hni => by
    have hcond : ¬ (old ≠ [] ∧ old.isPrefixOf s = true) := by
      rintro ⟨_, hpre⟩
      exact hni (List.isPrefixOf_iff_prefix.mp hpre).isInfix
    cases s with
    | nil =>
      rw [show pyReplaceF old new (f + 1) [] =
          if old ≠ [] ∧ old.isPrefixOf ([] : Line) = true then
            new ++ pyReplaceF old new f (([] : Line).drop old.length)
          else [] from rfl]
      rw [if_neg hcond]
    | cons c rest =>
      rw [show pyReplaceF old new (f + 1) (c :: rest) =
          if old ≠ [] ∧ old.isPrefixOf (c :: rest) = true then
            new ++ pyReplaceF old new f ((c :: rest).drop old.length)
          else c :: pyReplaceF old new f rest from rfl]
      rw [if_neg hcond]
      rw [pyReplaceF_eq_self_of_no_match f rest
        (fun hin => hni (List.infix_cons hin))]

theorem pyReplace_eq_self_of_no_match {s old new : Line} (hne : old ≠ [])
    (hni : ¬ old <:+: s) : pyReplace s old new = s := by
  unfold pyReplace
  rw [if_neg hne]
  exact pyReplaceF_eq_self_of_no_match s.length s hni

/-- C2 amended: every match reported by `find_self_reference_links` has a
bracketed identifier of the case-insensitive shape `aep-<digits>`,
arising from a substring `[id][id2]` of its line in which `id2` equals
`id` up to ASCII case (but not necessarily textually, since the
backreference is matched case-insensitively); the proposed fix replaces
every occurrence of the literal `[id][id]` in the line by the naked text
`id`, which when `[id][id]` does not occur in the line (as when the two
bracketed identifiers differ in case) leaves the line unchanged. -/
theorem self_reference_report_and_fix
    (aeps : List Line) (content : Line) (es : List Err) (fs : List Fix)
    (ln : Nat) (t : Line)
    (h : validate_file aeps false content = some (es, fs))
    (hmem : (ln, t) ∈ find_self_reference_links content) :
    is_aep_identifier t = true ∧
    (∃ p id2 q, (splitOnNL content).getD (ln - 1) [] =
        p ++ ('[' :: t ++ ']' :: '[' :: id2 ++ ']' :: q) ∧
      ciEqList t id2 = true) ∧
    ∃ orig, (pySplitlinesKeepends content).get? (ln - 1) = some orig ∧
      (ln - 1, orig, pyReplace orig (selfPat t) t) ∈ fs ∧
      (¬ selfPat t <:+: orig → pyReplace orig (selfPat t) t = orig) := by
  obtain ⟨i, hi, hln, ha⟩ := withLineNums_mem hmem
  have hidx : ln - 1 = i := by omega
  have hscan := scanSelfRefF_sound _ _ _ ha
  obtain ⟨p, id2, q, hline, hci, hid⟩ := hscan
  refine ⟨hid, ⟨p, id2, q, by rw [hidx, hline], hci⟩, ?_⟩
  obtain ⟨e1, f1, e2, f2, hp1, hp2, hes, hfs⟩ := validate_file_elim h
  obtain ⟨hall2, he2, hf2⟩ := processEF_some hp2
  have hsome := hall2 _ hmem
  obtain ⟨⟨ex, fx⟩, hex⟩ := Option.isSome_iff_exists.mp hsome
  obtain ⟨orig, hget, hee, hff⟩ := selfEF_elim hex
  refine ⟨orig, hget, ?_, ?_⟩
  · have hfix : (ln - 1, orig, pyReplace orig (selfPat t) t) ∈ fx := by
      rw [hff]
      simp
    have hmem2 : (ln - 1, orig, pyReplace orig (selfPat t) t) ∈ f2 := by
      rw [hf2]
      exact List.mem_flatMap.mpr ⟨(ln, t), hmem, by rw [hex]; simpa using hfix⟩
    rw [hfs]
    exact List.mem_append.mpr (Or.inr hmem2)
  · intro hni
    refine pyReplace_eq_self_of_no_match ?_ hni
    simp [selfPat, cs]

/-- Witness for C2 amended at the one-line file `[aep-5][aep-5]`. -/
theorem self_reference_report_and_fix_witness :
    is_aep_identifier (cs "aep-5") = true ∧
    (∃ p id2 q, (splitOnNL (cs "[aep-5][aep-5]")).getD (1 - 1) [] =
        p ++ ('[' :: cs "aep-5" ++ ']' :: '[' :: id2 ++ ']' :: q) ∧
      ciEqList (cs "aep-5") id2 = true) ∧
    ∃ orig,
      (pySplitlinesKeepends (cs "[aep-5][aep-5]")).get? (1 - 1) = some orig ∧
      (1 - 1, orig, pyReplace orig (selfPat (cs "aep-5")) (cs "aep-5")) ∈
        ([(0, cs "[aep-5][aep-5]", cs "aep-5")] : List Fix) ∧
      (¬ selfPat (cs "aep-5") <:+: orig →
        pyReplace orig (selfPat (cs "aep-5")) (cs "aep-5") = orig) :=
  self_reference_report_and_fix [] (cs "[aep-5][aep-5]")
    [Err.selfRef 1 (cs "aep-5")] [(0, cs "[aep-5][aep-5]", cs "aep-5")]
    1 (cs "aep-5") (by decide) (by decide)

end Aeps
